import Mathlib

/-!
Verification of the fiat workflow engine (`src/fiat`): a shallow embedding of
the Outline→Workflow resolution functions, the Workflow DAG, the component
Library, parameter finalization, the Director stepper and Component execution,
together with theorems settling the specification claims.

Python dicts are insertion-ordered, so two-level settings mappings and the
graph adjacency are embedded as association lists (`List (key × value)`);
Python sets of successor names are embedded as duplicate-free lists in
insertion order (only set-level facts are proved about any order-dependent
output).
-/

namespace Fiat

/-! ### Association-list primitives (embedding of Python `dict`) -/

/-- `d[k]` lookup returning `none` for a `KeyError`. -/
def lookupA {α : Type} [DecidableEq α] {β : Type} : List (α × β) → α → Option β
  | [], _ => none
  | (k, v) :: rest, a => if a = k then some v else lookupA rest a

/-- `d[k] = v` assignment: replaces in place if the key exists, else appends
(Python dicts keep insertion order). -/
def setA {α : Type} [DecidableEq α] {β : Type} :
    List (α × β) → α → β → List (α × β)
  | [], a, b => [(a, b)]
  | (k, v) :: rest, a, b =>
      if a = k then (k, b) :: rest else (k, v) :: setA rest a b

/-- `d1.update(d2)`: assigns every entry of `d2` into `d1` in order. -/
def updateA {α : Type} [DecidableEq α] {β : Type}
    (d : List (α × β)) (e : List (α × β)) : List (α × β) :=
  e.foldl (fun acc kv => setA acc kv.1 kv.2) d

/-- Keys of a dict, in insertion order. -/
def keysA {α : Type} {β : Type} (d : List (α × β)) : List α :=
  d.map Prod.fst

@[simp] theorem lookupA_nil {α : Type} [DecidableEq α] {β : Type} (a : α) :
    lookupA ([] : List (α × β)) a = none := rfl

@[simp] theorem lookupA_cons {α : Type} [DecidableEq α] {β : Type}
    (k : α) (v : β) (rest : List (α × β)) (a : α) :
    lookupA ((k, v) :: rest) a = if a = k then some v else lookupA rest a := rfl

@[simp] theorem lookupA_append {α : Type} [DecidableEq α] {β : Type}
    (d e : List (α × β)) (a : α) :
    lookupA (d ++ e) a = ((lookupA d a).rec (lookupA e a) fun v => some v) := by
  induction d with
  | nil => simp
  | cons kv rest ih =>
      obtain ⟨k, v⟩ := kv
      by_cases h : a = k <;> simp [h, ih]

/-! ### String utilities used by the outline resolver

`denovo.tools.divide_string` and `denovo.tools.listify` are helpers from the
external `denovo` dependency (out of scope per the spec).  `divide_string`
splits a key at its last underscore into prefix and suffix — the same
computation `Parameters._from_settings` in `src/fiat/base.py` inlines as
`name.split('_')[-1]` / `name[:-len(suffix) - 1]`.  `listify` wraps a bare
string into a one-element list and keeps a list as is. -/

/-- Position of the last `'_'` in `cs`, or `none` when there is none. -/
def lastUnderscore (cs : List Char) : Option Nat :=
  match (cs.reverse.findIdx? fun c => c = '_') with
  | none => none
  | some i => some (cs.length - 1 - i)

/-- `divide_string`: split a string at its last underscore into
`(prefix, suffix)`; with no underscore the prefix is empty. -/
def divideString (s : String) : String × String :=
  match lastUnderscore s.data with
  | none => ("", s)
  | some i => (⟨s.data.take i⟩, ⟨s.data.drop (i + 1)⟩)

/-- A settings value: a bare string or a list of strings. -/
inductive SettingValue : Type
  | str (s : String)
  | list (l : List String)
  deriving DecidableEq, Repr

/-- `denovo.tools.listify`. -/
def listify : SettingValue → List String
  | .str s => [s]
  | .list l => l

/-- `key.endswith(suffixes)` for a tuple of suffixes. -/
def endsWithAny (key : String) (suffixes : List String) : Bool :=
  suffixes.any fun s => key.endsWith s

/-- One configuration section: key → value, insertion-ordered. -/
abbrev SettingsSection := List (String × SettingValue)

/-- A two-level outline: section name → section. -/
abbrev Outline := List (String × SettingsSection)

/-! ### `outline_to_connections` (src/fiat/workshop.py:82-110)

Identical code appears as `Outline._get_connections` in
src/fiat/stages.py:108-126.  A Python dict's keys are unique, so iterating a
section's entries directly is the same as iterating `section.keys()` and
looking each key up. -/

/-- The owner a declaring key's children are attributed to: the section name
when the key's prefix equals its suffix, otherwise the prefix. -/
def ownerOf (sectionName key : String) : String :=
  let ps := divideString key
  if ps.1 = ps.2 then sectionName else ps.1

/-- `connections[owner].extend(values)` when `owner` is present, else
`connections[owner] = values`. -/
def extendConn (conns : List (String × List String)) (owner : String)
    (values : List String) : List (String × List String) :=
  match lookupA conns owner with
  | some old => setA conns owner (old ++ values)
  | none => conns ++ [(owner, values)]

/-- Inner loop of `outline_to_connections`: fold the component keys of one
section into the accumulated connections dict. -/
def connSection (suffixes : List String) (sectionName : String) :
    List (String × List String) → SettingsSection → List (String × List String)
  | conns, [] => conns
  | conns, (key, value) :: rest =>
      if endsWithAny key suffixes then
        connSection suffixes sectionName
          (extendConn conns (ownerOf sectionName key) (listify value)) rest
      else
        connSection suffixes sectionName conns rest

/-- Outer loop of `outline_to_connections` over the outline's sections. -/
def connSections (suffixes : List String) :
    List (String × List String) → Outline → List (String × List String)
  | conns, [] => conns
  | conns, (name, sec) :: rest =>
      connSections suffixes (connSection suffixes name conns sec) rest

/-- `outline_to_connections(outline, suffixes)`. -/
def outline_to_connections (outline : Outline) (suffixes : List String) :
    List (String × List String) :=
  connSections suffixes [] outline

/-! Specification-side characterization of the connections computation: the
children attributed to an owner are the concatenation, in encounter order, of
the values of every declaring key that resolves to that owner. -/

/-- Whether the declaring key `kv` in section `sectionName` attributes its
children to `o`. -/
def keyOwns (suffixes : List String) (sectionName : String)
    (kv : String × SettingValue) (o : String) : Bool :=
  endsWithAny kv.1 suffixes && (ownerOf sectionName kv.1 == o)

/-- Whether some declaring key of `sec` attributes children to `o`. -/
def secHasOwner (suffixes : List String) (sectionName : String)
    (sec : SettingsSection) (o : String) : Bool :=
  sec.any fun kv => keyOwns suffixes sectionName kv o

/-- The children `sec` declares for owner `o`, in encounter order. -/
def secOwned (suffixes : List String) (sectionName : String) (o : String) :
    SettingsSection → List String
  | [] => []
  | kv :: rest =>
      (if keyOwns suffixes sectionName kv o then listify kv.2 else []) ++
        secOwned suffixes sectionName o rest

/-- Whether some declaring key anywhere in the outline attributes children
to `o`. -/
def hasOwnerKey (outline : Outline) (suffixes : List String) (o : String) :
    Bool :=
  outline.any fun ns => secHasOwner suffixes ns.1 ns.2 o

/-- All children the outline declares for owner `o`, concatenated in encounter
order across sections and keys. -/
def ownedChildren (suffixes : List String) (o : String) :
    Outline → List String
  | [] => []
  | ns :: rest =>
      secOwned suffixes ns.1 o ns.2 ++ ownedChildren suffixes o rest

@[simp] theorem lookupA_setA {α : Type} [DecidableEq α] {β : Type}
    (d : List (α × β)) (k : α) (b : β) (a : α) :
    lookupA (setA d k b) a = if a = k then some b else lookupA d a := by
  induction d with
  | nil => simp [setA]
  | cons kv rest ih =>
      obtain ⟨k', v'⟩ := kv
      by_cases hkk : k = k'
      · subst hkk
        by_cases ha : a = k <;> simp [setA, ha]
      · by_cases ha : a = k'
        · subst ha
          simp [setA, hkk, Ne.symm hkk]
        · by_cases hak : a = k
          · subst hak; simp [setA, hkk, ha, ih]
          · simp [setA, hkk, ha, hak, ih]

theorem lookupA_extendConn (conns : List (String × List String))
    (w : String) (vs : List String) (o : String) :
    lookupA (extendConn conns w vs) o =
      if o = w then some ((lookupA conns o).getD [] ++ vs)
      else lookupA conns o := by
  unfold extendConn
  cases hw : lookupA conns w with
  | some old =>
      by_cases ho : o = w
      · subst ho; simp [hw]
      · simp [ho]
  | none =>
      by_cases ho : o = w
      · subst ho; simp [hw]
      · simp [ho]
        cases hc : lookupA conns o <;> simp

@[simp] theorem secHasOwner_nil (suffixes : List String) (n o : String) :
    secHasOwner suffixes n [] o = false := rfl

@[simp] theorem secHasOwner_cons (suffixes : List String) (n o : String)
    (kv : String × SettingValue) (rest : SettingsSection) :
    secHasOwner suffixes n (kv :: rest) o =
      (keyOwns suffixes n kv o || secHasOwner suffixes n rest o) := by
  simp [secHasOwner]

@[simp] theorem hasOwnerKey_nil (suffixes : List String) (o : String) :
    hasOwnerKey [] suffixes o = false := rfl

@[simp] theorem hasOwnerKey_cons (ns : String × SettingsSection)
    (rest : Outline) (suffixes : List String) (o : String) :
    hasOwnerKey (ns :: rest) suffixes o =
      (secHasOwner suffixes ns.1 ns.2 o || hasOwnerKey rest suffixes o) := by
  simp [hasOwnerKey]

theorem secOwned_nil_of_not_hasOwner (suffixes : List String)
    (sectionName : String) (sec : SettingsSection) (o : String)
    (h : secHasOwner suffixes sectionName sec o = false) :
    secOwned suffixes sectionName o sec = [] := by
  induction sec with
  | nil => rfl
  | cons kv rest ih =>
      rw [secHasOwner_cons, Bool.or_eq_false_iff] at h
      simp [secOwned, h.1, ih h.2]

theorem connSection_lookup (suffixes : List String) (sectionName : String)
    (sec : SettingsSection) (conns : List (String × List String)) (o : String) :
    lookupA (connSection suffixes sectionName conns sec) o =
      if secHasOwner suffixes sectionName sec o
      then some ((lookupA conns o).getD [] ++
                 secOwned suffixes sectionName o sec)
      else lookupA conns o := by
  induction sec generalizing conns with
  | nil => simp [connSection, secHasOwner, secOwned]
  | cons kv rest ih =>
      obtain ⟨k, v⟩ := kv
      by_cases hk : endsWithAny k suffixes
      · by_cases ho : ownerOf sectionName k = o
        · -- this key contributes to o
          have howns : keyOwns suffixes sectionName (k, v) o = true := by
            simp [keyOwns, hk, ho]
          simp only [connSection, hk, if_true, ih, lookupA_extendConn]
          by_cases hrest : secHasOwner suffixes sectionName rest o
          · simp [secOwned, howns, hrest, ho, List.append_assoc]
          · simp [secOwned, howns, hrest, ho,
                  secOwned_nil_of_not_hasOwner _ _ _ _ (by simpa using hrest)]
        · -- key matches a suffix but belongs to another owner
          have howns : keyOwns suffixes sectionName (k, v) o = false := by
            simp [keyOwns, hk, ho]
          simp only [connSection, hk, if_true, ih, lookupA_extendConn]
          simp [secOwned, howns, Ne.symm ho]
      · -- not a component key
        have howns : keyOwns suffixes sectionName (k, v) o = false := by
          simp [keyOwns, hk]
        simp only [connSection, hk, if_false]
        simp only [secHasOwner_cons, secOwned, howns, Bool.false_or,
                   List.nil_append]
        exact ih conns

theorem ownedChildren_nil_of_not_hasOwnerKey (outline : Outline)
    (suffixes : List String) (o : String)
    (h : hasOwnerKey outline suffixes o = false) :
    ownedChildren suffixes o outline = [] := by
  induction outline with
  | nil => rfl
  | cons ns rest ih =>
      rw [hasOwnerKey_cons, Bool.or_eq_false_iff] at h
      simp [ownedChildren, secOwned_nil_of_not_hasOwner _ _ _ _ h.1, ih h.2]

theorem connSections_lookup (suffixes : List String) (outline : Outline)
    (conns : List (String × List String)) (o : String) :
    lookupA (connSections suffixes conns outline) o =
      if hasOwnerKey outline suffixes o
      then some ((lookupA conns o).getD [] ++ ownedChildren suffixes o outline)
      else lookupA conns o := by
  induction outline generalizing conns with
  | nil => simp [connSections, hasOwnerKey, ownedChildren]
  | cons ns rest ih =>
      obtain ⟨name, sec⟩ := ns
      simp only [connSections, ih, connSection_lookup]
      by_cases hsec : secHasOwner suffixes name sec o
      · by_cases hrest : hasOwnerKey rest suffixes o
        · simp [ownedChildren, hsec, hrest, List.append_assoc]
        · simp [ownedChildren, hsec, hrest,
                ownedChildren_nil_of_not_hasOwnerKey _ _ _ (by simpa using hrest)]
      · simp [ownedChildren, hsec,
              secOwned_nil_of_not_hasOwner _ _ _ _ (by simpa using hsec)]

/-- **C1.** For every outline and suffix set, `outline_to_connections`
attributes children declared under a key `<prefix>_<suffix>` to the section
name when prefix equals suffix and to the prefix otherwise (`ownerOf`), and an
owner named by several keys or sections receives the concatenation of all of
its declared child lists in encounter order — entries are extended, never
overwritten. -/
theorem outline_to_connections_accumulates (outline : Outline)
    (suffixes : List String) (o : String) :
    lookupA (outline_to_connections outline suffixes) o =
      if hasOwnerKey outline suffixes o
      then some (ownedChildren suffixes o outline)
      else none := by
  unfold outline_to_connections
  rw [connSections_lookup]
  simp

/-! ### Workflow graph (src/fiat/stages.py `Workflow`; src/fiat/core.py
`Workflow.branchify`)

`contents` is a `defaultdict` from node to its set of successors; it is
embedded as an association list whose values are duplicate-free lists in
insertion order, so that every set-level statement about the Python graph is a
statement about the list up to order. -/

/-- Adjacency list: node → successor set. -/
abbrev Adjacency (α : Type) := List (α × List α)

/-- `node in self`: membership among the stored keys. -/
def hasNode {α : Type} [DecidableEq α] (g : Adjacency α) (n : α) : Bool :=
  (lookupA g n).isSome

/-- `Workflow.add(node)` with neither ancestors nor descendants:
`self.contents[node] = set()`. -/
def addNode {α : Type} [DecidableEq α] (g : Adjacency α) (n : α) :
    Adjacency α :=
  setA g n []

/-- Read of `self.contents[start]`: the `defaultdict` yields an empty set for
a missing key. -/
def succList {α : Type} [DecidableEq α] (g : Adjacency α) (n : α) : List α :=
  (lookupA g n).getD []

/-- `self.contents[start].add(stop)` (with `defaultdict` autovivification of
a missing `start`). -/
def insertSucc {α : Type} [DecidableEq α] (g : Adjacency α) (s t : α) :
    Adjacency α :=
  match lookupA g s with
  | some vs => setA g s (vs ++ [t])
  | none => g ++ [(s, [t])]

/-- `Workflow.connect(start, stop)` (src/fiat/stages.py:332-352).  Raises
`ValueError` on `start == stop`; otherwise runs the source's `elif` chain —
`start` is inserted when absent, else `stop` is inserted when absent — and
then adds the edge unless it is already present. -/
def connect {α : Type} [DecidableEq α] (g : Adjacency α) (start stop : α) :
    Except String (Adjacency α) :=
  if start = stop then
    .error "ValueError: the start of an edge cannot be the same as the stop"
  else
    let g1 :=
      if ¬ hasNode g start then addNode g start
      else if ¬ hasNode g stop then addNode g stop
      else g
    .ok (if stop ∈ succList g1 start then g1 else insertSucc g1 start stop)

/-- Folds `connect` over a list of edges, propagating the first error. -/
def connectPairs {α : Type} [DecidableEq α] :
    Adjacency α → List (α × α) → Except String (Adjacency α)
  | g, [] => .ok g
  | g, (s, t) :: rest =>
      match connect g s t with
      | .error e => .error e
      | .ok g' => connectPairs g' rest

/-- `itertools.product(*nodes)`: Cartesian product with the last factor
varying fastest. -/
def cartesian {α : Type} : List (List α) → List (List α)
  | [] => [[]]
  | grp :: rest => grp.flatMap fun x => (cartesian rest).map fun p => x :: p

/-- `more_itertools.windowed(path, 2)`: the consecutive pairs of a path. -/
def windowed2 {α : Type} : List α → List (α × α)
  | a :: b :: rest => (a, b) :: windowed2 (b :: rest)
  | _ => []

/-- Keys of the adjacency whose successor set is empty:
`Workflow.endpoints`. -/
def endpoints {α : Type} [DecidableEq α] : Adjacency α → List α
  | [] => []
  | (k, vs) :: rest => (if vs = [] then [k] else []) ++ endpoints rest

/-- The concatenation of every successor set:
`itertools.chain.from_iterable(self.contents.values())`. -/
def allSuccs {α : Type} : Adjacency α → List α
  | [] => []
  | (_, vs) :: rest => vs ++ allSuccs rest

/-- Keeps the elements not occurring in `stops`. -/
def filterNotMem {α : Type} [DecidableEq α] (stops : List α) :
    List α → List α
  | [] => []
  | k :: rest =>
      (if k ∈ stops then [] else [k]) ++ filterNotMem stops rest

/-- `Workflow.roots`: keys that appear in no successor set. -/
def roots {α : Type} [DecidableEq α] (g : Adjacency α) : List α :=
  filterNotMem (allSuccs g) (keysA g)

/-- One path of `Workflow.branchify`'s loop body: every starting point is
connected to the path's head (`add_edge`, modelled from the spec as the
repository's own `connect`, which the sibling method `extend` uses for the
same purpose: auto-insert absent endpoints, then add the edge); with no
starting points the head is added as a bare node when absent; finally the
consecutive pairs of the path are connected.  `path[0]` on an empty product
tuple is an `IndexError`. -/
def branchOnePath {α : Type} [DecidableEq α] (starts : List α)
    (g : Adjacency α) (path : List α) : Except String (Adjacency α) :=
  match path with
  | [] => .error "IndexError: list index out of range"
  | p0 :: _ =>
      let step1 : Except String (Adjacency α) :=
        if starts ≠ [] then connectPairs g (starts.map fun s => (s, p0))
        else if ¬ hasNode g p0 then .ok (addNode g p0)
        else .ok g
      match step1 with
      | .error e => .error e
      | .ok g' => connectPairs g' (windowed2 path)

/-- Folds `branchOnePath` over all product paths. -/
def branchPaths {α : Type} [DecidableEq α] (starts : List α) :
    Adjacency α → List (List α) → Except String (Adjacency α)
  | g, [] => .ok g
  | g, p :: rest =>
      match branchOnePath starts g p with
      | .error e => .error e
      | .ok g' => branchPaths starts g' rest

/-- `Workflow.branchify(nodes, start)` (src/fiat/core.py:77-106): extends the
graph with one serial path per element of the Cartesian product of `nodess`,
each connected to every starting point (the current endpoints when `start` is
`None`). -/
def branchify {α : Type} [DecidableEq α] (g : Adjacency α)
    (nodess : List (List α)) (start : Option (List α)) :
    Except String (Adjacency α) :=
  let starts := match start with
    | none => endpoints g
    | some l => l
  branchPaths starts g (cartesian nodess)

/-- `Workflow.walk(start, stop, path)` (src/fiat/stages.py:488-524), fuel
indexed.  The source recursion is unbounded; every nested call appends to
`path` a node not already on it and recursion only continues from nodes
stored in the adjacency, so `g.length + 1` levels are never exhausted (at
zero fuel the embedding returns no paths). -/
def walkAux {α : Type} [DecidableEq α] (g : Adjacency α) :
    Nat → α → α → List α → List (List α)
  | 0, _, _, _ => []
  | fuel + 1, start, stop, path =>
      let path' := path ++ [start]
      if start = stop then [path']
      else if ¬ hasNode g start then []
      else
        (succList g start).flatMap fun n =>
          if n ∈ path' then [] else walkAux g fuel n stop path'

/-- `Workflow.walk(start, stop)` with the default empty path. -/
def walk {α : Type} [DecidableEq α] (g : Adjacency α) (start stop : α) :
    List (List α) :=
  walkAux g (g.length + 1) start stop []

/-- `Workflow._find_all_paths` (src/fiat/stages.py:528-554): accumulates
`walk` over every start/stop pair.  `walk` always returns a list of lists, so
the source's `all(isinstance(path, Hashable) ...)` test is always false and
the accumulation is a plain `extend` (extending with an empty result is the
same as the source's `if paths:` guard). -/
def findAllPaths {α : Type} [DecidableEq α] (g : Adjacency α)
    (starts stops : List α) : List (List α) :=
  starts.flatMap fun s => stops.flatMap fun e => walk g s e

/-- `Workflow.paths`: all paths from all roots to all endpoints. -/
def pathsOf {α : Type} [DecidableEq α] (g : Adjacency α) : List (List α) :=
  findAllPaths g (roots g) (endpoints g)

/-- The `Workflow` dataclass: its stored state is the adjacency list. -/
structure Workflow (α : Type) where
  contents : Adjacency α
  deriving DecidableEq, Repr

/-- `Workflow.from_adjacency` (src/fiat/stages.py:230-233):
`cls(contents = adjacency)`. -/
def Workflow.from_adjacency {α : Type} (adjacency : Adjacency α) :
    Workflow α :=
  ⟨adjacency⟩

/-- The `Workflow.adjacency` property (src/fiat/stages.py:187-190): returns
`self.contents`. -/
def Workflow.adjacency {α : Type} (w : Workflow α) : Adjacency α :=
  w.contents

/-- The `Workflow.nodes` property (src/fiat/stages.py:212-215): the stored
keys. -/
def Workflow.nodesOf {α : Type} (w : Workflow α) : List α :=
  keysA w.contents

/-! Lookup lemmas for the graph operations. -/

@[simp] theorem lookupA_append_single {α : Type} [DecidableEq α] {β : Type}
    (g : List (α × β)) (k : α) (v : β) (a : α) :
    lookupA (g ++ [(k, v)]) a =
      match lookupA g a with
      | some w => some w
      | none => if a = k then some v else none := by
  induction g with
  | nil => simp
  | cons kv rest ih =>
      obtain ⟨k', v'⟩ := kv
      by_cases ha : a = k' <;> simp [ha, ih]

@[simp] theorem hasNode_setA {α : Type} [DecidableEq α]
    (g : Adjacency α) (n : α) (vs : List α) (m : α) :
    hasNode (setA g n vs) m = if m = n then true else hasNode g m := by
  simp [hasNode, lookupA_setA, apply_ite Option.isSome]

@[simp] theorem succList_setA {α : Type} [DecidableEq α]
    (g : Adjacency α) (n : α) (vs : List α) (m : α) :
    succList (setA g n vs) m = if m = n then vs else succList g m := by
  simp [succList, lookupA_setA, apply_ite (fun o => Option.getD o [])]

@[simp] theorem lookupA_insertSucc {α : Type} [DecidableEq α]
    (g : Adjacency α) (s t m : α) :
    lookupA (insertSucc g s t) m =
      if m = s then some (succList g s ++ [t]) else lookupA g m := by
  unfold insertSucc
  cases hs : lookupA g s with
  | some vs =>
      by_cases hm : m = s <;> simp [lookupA_setA, hm, succList, hs]
  | none =>
      by_cases hm : m = s
      · subst hm; simp [hs, succList]
      · simp [hm]
        cases hgm : lookupA g m <;> simp [hm]

@[simp] theorem hasNode_insertSucc {α : Type} [DecidableEq α]
    (g : Adjacency α) (s t m : α) :
    hasNode (insertSucc g s t) m = if m = s then true else hasNode g m := by
  simp [hasNode, apply_ite Option.isSome]

@[simp] theorem succList_insertSucc {α : Type} [DecidableEq α]
    (g : Adjacency α) (s t m : α) :
    succList (insertSucc g s t) m =
      if m = s then succList g s ++ [t] else succList g m := by
  simp [succList, apply_ite (fun o => Option.getD o [])]

/-- **C3.** For every workflow graph and node `x`, `connect(x, x)` fails with
the `ValueError`; the failed call produces no new graph, so the stored
adjacency is unchanged. -/
theorem connect_self_loop_fails {α : Type} [DecidableEq α]
    (g : Adjacency α) (x : α) :
    connect g x x =
      Except.error
        "ValueError: the start of an edge cannot be the same as the stop" := by
  simp [connect]

/-- **C9.** Building a `Workflow` with `from_adjacency` and reading back the
`adjacency` property yields the same adjacency map. -/
theorem from_adjacency_roundtrip {α : Type} (m : Adjacency α) :
    (Workflow.from_adjacency m).adjacency = m := rfl


/-- **C4 (counterexample).** On the empty graph `connect("a", "b")` succeeds
but only inserts `"a"` as a key: afterwards `"b"` is not among the graph's
nodes, contradicting the claim that both endpoints are nodes after the call
even when both were absent. -/
theorem connect_both_absent_drops_stop :
    connect ([] : Adjacency String) "a" "b" = Except.ok [("a", ["b"])] ∧
      "b" ∉ (Workflow.from_adjacency [("a", ["b"])]).nodesOf := by
  constructor
  · rfl
  · simp [Workflow.from_adjacency, Workflow.nodesOf, keysA]

/-- **C4 (amended).** For distinct `start` and `stop`, `connect` succeeds: it
inserts `start` when absent, otherwise inserts `stop` when absent (the
source's `elif` chain inserts at most one endpoint per call); afterwards
`start` is a node, `stop` is a successor of `start`, and `stop` is a node
exactly when at least one endpoint was already present — when both were
absent, `stop` is recorded only as a successor, not as a node. -/
theorem connect_auto_insert {α : Type} [DecidableEq α]
    (g : Adjacency α) (start stop : α) (h : start ≠ stop) :
    ∃ g', connect g start stop = Except.ok g' ∧
      hasNode g' start = true ∧
      stop ∈ succList g' start ∧
      hasNode g' stop = (hasNode g start || hasNode g stop) := by
  unfold connect
  rw [if_neg h]
  simp only []
  by_cases hstart : hasNode g start
  · by_cases hstop : hasNode g stop
    · have hg1 : (if ¬hasNode g start = true then addNode g start
          else if ¬hasNode g stop = true then addNode g stop else g) = g := by
        simp [hstart, hstop]
      rw [hg1]
      by_cases hmem : stop ∈ succList g start
      · exact ⟨g, by rw [if_pos hmem], by simp [hstart],
               hmem, by simp [hstart, hstop]⟩
      · refine ⟨insertSucc g start stop, by rw [if_neg hmem], ?_, ?_, ?_⟩
        · simp [hstart]
        · simp [hmem]
        · simp [Ne.symm h, hstop, hstart]
    · have hg1 : (if ¬hasNode g start = true then addNode g start
          else if ¬hasNode g stop = true then addNode g stop else g) =
          addNode g stop := by
        simp [hstart, hstop]
      rw [hg1]
      by_cases hmem : stop ∈ succList (addNode g stop) start
      · refine ⟨addNode g stop, by rw [if_pos hmem], ?_, hmem, ?_⟩
        · simp [addNode, hstart, Ne.symm h]
        · simp [addNode, hstart, hstop]
      · refine ⟨insertSucc (addNode g stop) start stop,
                by rw [if_neg hmem], ?_, ?_, ?_⟩
        · simp [addNode, hstart, Ne.symm h]
        · simp [hmem]
        · simp [addNode, Ne.symm h, hstart, hstop]
  · have hg1 : (if ¬hasNode g start = true then addNode g start
        else if ¬hasNode g stop = true then addNode g stop else g) =
        addNode g start := by
      simp [hstart]
    rw [hg1]
    have hmem : stop ∉ succList (addNode g start) start := by simp [addNode]
    rw [if_neg hmem]
    refine ⟨insertSucc (addNode g start) start stop, rfl, ?_, ?_, ?_⟩
    · simp [addNode]
    · simp
    · simp [addNode, Ne.symm h, hstart]

/-- Witness for `connect_auto_insert` at the empty graph with nodes
`"a" ≠ "b"`. -/
theorem connect_auto_insert_witness :
    ∃ g', connect ([] : Adjacency String) "a" "b" = Except.ok g' ∧
      hasNode g' "a" = true ∧
      "b" ∈ succList g' "a" ∧
      hasNode g' "b" =
        (hasNode ([] : Adjacency String) "a" ||
         hasNode ([] : Adjacency String) "b") :=
  connect_auto_insert ([] : Adjacency String) "a" "b" (by decide)


/-- **C2.** On the empty workflow, for pairwise distinct nodes `s a b c d`,
`branchify([[a, b], [c, d]], start = [s])` yields a graph whose root-to-
endpoint paths are exactly the four sequences `[s,a,c]`, `[s,a,d]`, `[s,b,c]`,
`[s,b,d]` — one path per element of the Cartesian product of the groups, each
prefixed by the start node (equality as multisets of paths; the order in which
`Workflow.paths` lists them follows Python set iteration and is not part of
the claim). -/
theorem branchify_cartesian_product_paths {α : Type} [DecidableEq α]
    (s a b c d : α)
    (hsa : s ≠ a) (hsb : s ≠ b) (hsc : s ≠ c) (hsd : s ≠ d)
    (hab : a ≠ b) (hac : a ≠ c) (had : a ≠ d)
    (hbc : b ≠ c) (hbd : b ≠ d) (hcd : c ≠ d) :
    ∃ g, branchify ([] : Adjacency α) [[a, b], [c, d]] (some [s]) =
        Except.ok g ∧
      (pathsOf g).Perm [[s, a, c], [s, a, d], [s, b, c], [s, b, d]] := by
  have hg : branchify ([] : Adjacency α) [[a, b], [c, d]] (some [s]) =
      Except.ok [(s, [a, b]), (a, [c, d]), (d, []), (b, [c, d]), (c, [])] := by
    simp [branchify, cartesian, branchPaths, branchOnePath, connectPairs,
          connect, windowed2, hasNode, addNode, succList, insertSucc, setA,
          hsa, hsb, hsc, hsd, hab, hac, had, hbc, hbd, hcd,
          Ne.symm hsa, Ne.symm hsb, Ne.symm hsc, Ne.symm hsd,
          Ne.symm hab, Ne.symm hac, Ne.symm had,
          Ne.symm hbc, Ne.symm hbd, Ne.symm hcd]
  have hp : pathsOf [(s, [a, b]), (a, [c, d]), (d, []), (b, [c, d]), (c, [])] =
      [[s, a, d], [s, b, d], [s, a, c], [s, b, c]] := by
    simp [pathsOf, findAllPaths, roots, endpoints, keysA, allSuccs,
          filterNotMem, walk, walkAux, succList, hasNode,
          hsa, hsb, hsc, hsd, hab, hac, had, hbc, hbd, hcd,
          Ne.symm hsa, Ne.symm hsb, Ne.symm hsc, Ne.symm hsd,
          Ne.symm hab, Ne.symm hac, Ne.symm had,
          Ne.symm hbc, Ne.symm hbd, Ne.symm hcd]
  refine ⟨_, hg, ?_⟩
  rw [hp]
  exact List.Perm.trans (List.Perm.cons _ (List.Perm.swap _ _ _))
    (List.Perm.trans (List.Perm.swap _ _ _)
      (List.Perm.cons _ (List.Perm.cons _ (List.Perm.swap _ _ _))))

/-- Witness for `branchify_cartesian_product_paths` at the five distinct
strings `"s" "a" "b" "c" "d"`. -/
theorem branchify_cartesian_product_paths_witness :
    ∃ g, branchify ([] : Adjacency String) [["a", "b"], ["c", "d"]]
        (some ["s"]) = Except.ok g ∧
      (pathsOf g).Perm
        [["s", "a", "c"], ["s", "a", "d"], ["s", "b", "c"], ["s", "b", "d"]] :=
  branchify_cartesian_product_paths "s" "a" "b" "c" "d"
    (by decide) (by decide) (by decide) (by decide) (by decide)
    (by decide) (by decide) (by decide) (by decide) (by decide)


/-! ### `Library.instance` (src/fiat/nodes.py:113-149)

Python objects live on a heap and `copy.deepcopy` allocates a fresh object;
object identity and mutation are made explicit through a heap of component
records addressed by allocation index.  `Library.instance` returns the heap
after the call together with the reference of the returned object. -/

/-- A component object: its `name` and mutable attribute record. -/
structure CompVal where
  name : String
  attrs : List (String × String)
  deriving DecidableEq, Repr

/-- A registered component class; constructing it sets `name` to the primary
candidate and assigns the remaining keyword attributes over the class
defaults. -/
structure CompClass where
  defaults : List (String × String)
  deriving DecidableEq, Repr

/-- The Python heap: component objects addressed by allocation index. -/
structure Heap where
  cells : List CompVal
  deriving DecidableEq, Repr

def Heap.read (h : Heap) (i : Nat) : Option CompVal := h.cells[i]?

def Heap.alloc (h : Heap) (v : CompVal) : Heap × Nat :=
  (⟨h.cells ++ [v]⟩, h.cells.length)

def Heap.write (h : Heap) (i : Nat) (v : CompVal) : Heap := ⟨h.cells.set i v⟩

/-- What a catalog lookup yields: a subclass (type) or a stored instance. -/
inductive CatalogItem : Type
  | cls (c : CompClass)
  | inst (ref : Nat)
  deriving DecidableEq, Repr

/-- The `Library` dataclass: `subclasses` (design tag → type) and `instances`
(name → stored instance). -/
structure Library where
  subclasses : List (String × CompClass)
  instances : List (String × Nat)
  deriving DecidableEq, Repr

/-- The lookup loop of `Library.instance`: for each candidate key in order,
the `instances` catalog is tried before `subclasses`; the first hit wins. -/
def findInstanceFirst (lib : Library) : List String → Option CatalogItem
  | [] => none
  | key :: rest =>
      match lookupA lib.instances key with
      | some ref => some (.inst ref)
      | none =>
          match lookupA lib.subclasses key with
          | some c => some (.cls c)
          | none => findInstanceFirst lib rest

/-- `item(name = primary, **kwargs)`: fresh construction from a type. -/
def constructComp (c : CompClass) (primary : String)
    (kwargs : List (String × String)) : CompVal :=
  ⟨primary, updateA c.defaults kwargs⟩

/-- `copy.deepcopy(item)` followed by `setattr` of each keyword override. -/
def applyOverrides (v : CompVal) (kwargs : List (String × String)) : CompVal :=
  { v with attrs := updateA v.attrs kwargs }

/-- `Library.instance(name, **kwargs)` (src/fiat/nodes.py:113-149): looks up
the candidates instances-first; a type match is constructed fresh (a new
allocation), an instance match is deep-copied (also a new allocation) with
the overrides assigned; no match is a `KeyError`, and `names[0]` of an empty
candidate list is an `IndexError`. -/
def libInstance (lib : Library) (h : Heap) (names : List String)
    (kwargs : List (String × String)) : Except String (Heap × Nat) :=
  match names with
  | [] => .error "IndexError: list index out of range"
  | primary :: _ =>
      match findInstanceFirst lib names with
      | none => .error "KeyError: no matching item was found"
      | some (.cls c) => .ok (h.alloc (constructComp c primary kwargs))
      | some (.inst ref) =>
          match h.read ref with
          | none => .error "dangling instance reference"
          | some v => .ok (h.alloc (applyOverrides v kwargs))

theorem heap_read_append_lt (cells : List CompVal) (v : CompVal) (i : Nat)
    (hi : i < cells.length) :
    (⟨cells ++ [v]⟩ : Heap).read i = cells[i]? := by
  simp [Heap.read, List.getElem?_append_left hi]

theorem heap_read_append_self (cells : List CompVal) (v : CompVal) :
    (⟨cells ++ [v]⟩ : Heap).read cells.length = some v := by
  simp [Heap.read]

theorem libInstance_cls_fresh_aux (lib : Library) (h : Heap)
    (primary : String) (names : List String) (kwargs : List (String × String))
    (c : CompClass)
    (hfind : findInstanceFirst lib (primary :: names) = some (.cls c)) :
    ∃ h1 r1 h2 r2,
      libInstance lib h (primary :: names) kwargs = Except.ok (h1, r1) ∧
      libInstance lib h1 (primary :: names) kwargs = Except.ok (h2, r2) ∧
      r1 ≠ r2 := by
  refine ⟨⟨h.cells ++ [constructComp c primary kwargs]⟩, h.cells.length,
          ⟨(h.cells ++ [constructComp c primary kwargs]) ++
            [constructComp c primary kwargs]⟩,
          h.cells.length + 1, ?_, ?_, ?_⟩
  · simp [libInstance, hfind, Heap.alloc]
  · simp [libInstance, hfind, Heap.alloc]
  · omega

theorem libInstance_inst_copies_aux (lib : Library) (h : Heap)
    (primary : String) (names : List String) (kwargs : List (String × String))
    (ref : Nat) (v : CompVal)
    (hfind : findInstanceFirst lib (primary :: names) = some (.inst ref))
    (hv : h.read ref = some v) :
    ∃ h1 r1 h2 r2,
      libInstance lib h (primary :: names) kwargs = Except.ok (h1, r1) ∧
      libInstance lib h1 (primary :: names) kwargs = Except.ok (h2, r2) ∧
      r1 ≠ r2 ∧ r1 ≠ ref ∧ r2 ≠ ref ∧
      h2.read r1 = some (applyOverrides v kwargs) ∧
      h2.read r2 = some (applyOverrides v kwargs) ∧
      (∀ w, (h2.write r1 w).read r2 = h2.read r2 ∧
            (h2.write r1 w).read ref = some v) ∧
      (∀ w, (h2.write r2 w).read r1 = h2.read r1 ∧
            (h2.write r2 w).read ref = some v) := by
  have href : ref < h.cells.length := by
    by_contra hcon
    push_neg at hcon
    rw [Heap.read, List.getElem?_eq_none hcon] at hv
    exact Option.noConfusion hv
  set cp := applyOverrides v kwargs with hcp
  have hread1 : (⟨h.cells ++ [cp]⟩ : Heap).read ref = some v := by
    rw [heap_read_append_lt _ _ _ href]
    exact hv
  have hlen1 : (h.cells ++ [cp]).length = h.cells.length + 1 := by simp
  refine ⟨⟨h.cells ++ [cp]⟩, h.cells.length,
          ⟨(h.cells ++ [cp]) ++ [cp]⟩, (h.cells ++ [cp]).length,
          ?_, ?_, ?_, ?_, ?_, ?_, ?_, ?_, ?_⟩
  · simp [libInstance, hfind, Heap.alloc, hv]
  · simp [libInstance, hfind, Heap.alloc, hread1]
  · omega
  · omega
  · omega
  · rw [heap_read_append_lt _ _ _ (by simp)]
    simp
  · exact heap_read_append_self _ _
  · intro w
    constructor
    · show ((⟨(h.cells ++ [cp]) ++ [cp]⟩ : Heap).cells.set h.cells.length w)[(h.cells ++ [cp]).length]? = _
      rw [List.getElem?_set_ne (by simp)]
      rfl
    · show ((⟨(h.cells ++ [cp]) ++ [cp]⟩ : Heap).cells.set h.cells.length w)[ref]? = some v
      rw [List.getElem?_set_ne (by omega)]
      rw [List.getElem?_append_left (by simp; omega)]
      rw [List.getElem?_append_left href]
      simpa [Heap.read] using hv
  · intro w
    constructor
    · show ((⟨(h.cells ++ [cp]) ++ [cp]⟩ : Heap).cells.set (h.cells ++ [cp]).length w)[h.cells.length]? = _
      rw [List.getElem?_set_ne (by simp)]
      rfl
    · show ((⟨(h.cells ++ [cp]) ++ [cp]⟩ : Heap).cells.set (h.cells ++ [cp]).length w)[ref]? = some v
      rw [List.getElem?_set_ne (by omega)]
      rw [List.getElem?_append_left (by simp; omega)]
      rw [List.getElem?_append_left href]
      simpa [Heap.read] using hv


/-- **C5.** Two calls to `Library.instance` on the same name return
independent objects: when the name resolves to a registered type, the two
calls allocate two distinct objects; when it resolves to a stored instance,
the two calls return two distinct deep copies (both distinct from the stored
original), and writing through either copy's reference changes neither the
other copy nor the stored original. -/
theorem libInstance_two_calls_independent (lib : Library) (h : Heap)
    (primary : String) (names : List String)
    (kwargs : List (String × String)) :
    (∀ c, findInstanceFirst lib (primary :: names) = some (.cls c) →
      ∃ h1 r1 h2 r2,
        libInstance lib h (primary :: names) kwargs = Except.ok (h1, r1) ∧
        libInstance lib h1 (primary :: names) kwargs = Except.ok (h2, r2) ∧
        r1 ≠ r2) ∧
    (∀ ref v, findInstanceFirst lib (primary :: names) = some (.inst ref) →
      h.read ref = some v →
      ∃ h1 r1 h2 r2,
        libInstance lib h (primary :: names) kwargs = Except.ok (h1, r1) ∧
        libInstance lib h1 (primary :: names) kwargs = Except.ok (h2, r2) ∧
        r1 ≠ r2 ∧ r1 ≠ ref ∧ r2 ≠ ref ∧
        h2.read r1 = some (applyOverrides v kwargs) ∧
        h2.read r2 = some (applyOverrides v kwargs) ∧
        (∀ w, (h2.write r1 w).read r2 = h2.read r2 ∧
              (h2.write r1 w).read ref = some v) ∧
        (∀ w, (h2.write r2 w).read r1 = h2.read r1 ∧
              (h2.write r2 w).read ref = some v)) :=
  ⟨fun c hc => libInstance_cls_fresh_aux lib h primary names kwargs c hc,
   fun ref v hf hv =>
     libInstance_inst_copies_aux lib h primary names kwargs ref v hf hv⟩

/-- A sample library whose name `"x"` resolves to a registered type. -/
def sampleLibType : Library := ⟨[("x", ⟨[("power", "high")]⟩)], []⟩

/-- A sample stored instance and a library whose name `"x"` resolves to it. -/
def sampleVal : CompVal := ⟨"x", [("power", "low")]⟩

/-- The heap holding `sampleVal` at reference 0. -/
def sampleHeap : Heap := ⟨[sampleVal]⟩

/-- A sample library whose name `"x"` resolves to the stored instance. -/
def sampleLibInst : Library := ⟨[], [("x", 0)]⟩

/-- Witness for `libInstance_two_calls_independent`: both branches discharged
at concrete libraries resolving `"x"` to a type and to a stored instance. -/
theorem libInstance_two_calls_independent_witness :
    (∃ h1 r1 h2 r2,
        libInstance sampleLibType ⟨[]⟩ ["x"] [] = Except.ok (h1, r1) ∧
        libInstance sampleLibType h1 ["x"] [] = Except.ok (h2, r2) ∧
        r1 ≠ r2) ∧
    (∃ h1 r1 h2 r2,
        libInstance sampleLibInst sampleHeap ["x"] [] = Except.ok (h1, r1) ∧
        libInstance sampleLibInst h1 ["x"] [] = Except.ok (h2, r2) ∧
        r1 ≠ r2 ∧ r1 ≠ 0 ∧ r2 ≠ 0 ∧
        h2.read r1 = some (applyOverrides sampleVal []) ∧
        h2.read r2 = some (applyOverrides sampleVal []) ∧
        (∀ w, (h2.write r1 w).read r2 = h2.read r2 ∧
              (h2.write r1 w).read 0 = some sampleVal) ∧
        (∀ w, (h2.write r2 w).read r1 = h2.read r1 ∧
              (h2.write r2 w).read 0 = some sampleVal)) :=
  ⟨(libInstance_two_calls_independent sampleLibType ⟨[]⟩ "x" [] []).1
      ⟨[("power", "high")]⟩ (by rfl),
   (libInstance_two_calls_independent sampleLibInst sampleHeap "x" [] []).2
      0 sampleVal (by rfl) (by rfl)⟩


/-! ### `Parameters.finalize` (src/fiat/base.py:84-158) -/

/-- The `Parameters` dataclass state consumed by `finalize`.  Parameter
values are abstracted as natural numbers. -/
structure Parameters where
  contents : List (String × Nat)
  name : String
  default : List (String × Nat)
  implementation : List (String × String)
  selected : List String
  deriving DecidableEq, Repr

/-- The project data `finalize` consults: `project.settings` (`none` means the
attribute is missing, so the `except AttributeError` branch skips the settings
layer), the project's named attributes, and `project.contents`. -/
structure Project where
  settings : Option (List (String × List (String × Nat)))
  attrs : List (String × Nat)
  contents : List (String × Nat)
  deriving DecidableEq, Repr

/-- `Parameters._from_settings` (src/fiat/base.py:113-137): tries the section
`<name>_parameters`, then `<prefix>_parameters` and `<suffix>_parameters`
from splitting `name` at its last underscore, else an empty dict. -/
def fromSettings (settings : List (String × List (String × Nat)))
    (name : String) : List (String × Nat) :=
  match lookupA settings (name ++ "_parameters") with
  | some ps => ps
  | none =>
      match lookupA settings ((divideString name).1 ++ "_parameters") with
      | some ps => ps
      | none =>
          match lookupA settings ((divideString name).2 ++ "_parameters") with
          | some ps => ps
          | none => []

/-- `Parameters._at_runtime` (src/fiat/base.py:139-158): for each
`(parameter, attribute)` of `implementation`, assigns into `contents` the
project attribute named `attribute`, falling back to
`project.contents[attribute]`, silently skipping a miss. -/
def atRuntime (implementation : List (String × String))
    (contents : List (String × Nat)) (proj : Project) : List (String × Nat) :=
  match implementation with
  | [] => contents
  | (parameter, attrName) :: rest =>
      let contents' :=
        match lookupA proj.attrs attrName with
        | some val => setA contents parameter val
        | none =>
            match lookupA proj.contents attrName with
            | some val => setA contents parameter val
            | none => contents
      atRuntime rest contents' proj

/-- `Parameters.finalize(project, **kwargs)` (src/fiat/base.py:84-109).
The source layers `default`, `kwargs`, the settings section, the runtime
values (which `_at_runtime` writes into `self.contents` before `update(self)`
reads them back) and finally `self.contents`; it then *assigns the filtered
dict comprehension over `selected` to `self.contents` and immediately
overwrites it with the full layered dict*, so the selection has no effect on
the result beyond raising `KeyError` when a selected key is absent from
`contents`.  `parameters` is the very dict object `self.default`, so the
final state aliases both fields to the layered dict. -/
def Parameters.finalize (p : Parameters) (proj : Project)
    (kwargs : List (String × Nat)) : Except String Parameters :=
  let parameters := updateA p.default kwargs
  let parameters :=
    match proj.settings with
    | none => parameters
    | some s => updateA parameters (fromSettings s p.name)
  let contents1 :=
    if p.implementation ≠ [] then atRuntime p.implementation p.contents proj
    else p.contents
  let parameters :=
    if p.implementation ≠ [] then updateA parameters contents1 else parameters
  let parameters := updateA parameters contents1
  if p.selected ≠ [] then
    if p.selected.all fun k => (lookupA contents1 k).isSome then
      .ok { p with contents := parameters, default := parameters }
    else .error "KeyError: selected parameter missing from contents"
  else .ok { p with contents := parameters, default := parameters }

/-- **C6.** The code contradicts the claim (and its own docstring): with
`selected = ["a"]` and contents `{a: 1, b: 2}`, `finalize` succeeds but the
resulting contents keep the unselected key `"b"` — the assignment
`self.contents = parameters` on src/fiat/base.py:108 overwrites the filtered
dict built on line 107, so extra keys are never dropped. -/
theorem finalize_selected_keys_not_filtered :
    Parameters.finalize ⟨[("a", 1), ("b", 2)], "n", [], [], ["a"]⟩
        ⟨none, [], []⟩ [] =
      Except.ok ⟨[("a", 1), ("b", 2)], "n", [("a", 1), ("b", 2)], [], ["a"]⟩ ∧
    keysA [(("a" : String), (1 : Nat)), ("b", 2)] ≠ ["a"] := by
  constructor
  · rfl
  · decide

/-! ### `Director` (src/fiat/interface.py:46-174) -/

/-- The `Director` dataclass: `stages` is an insertion-ordered dict from
stage name to the value stored for it, and `index` is the iteration cursor
set to 0 by `__post_init__`. -/
structure Director where
  stages : List (String × String)
  index : Nat
  deriving DecidableEq, Repr

/-- The `Director.current` property: `list(self.stages.keys())[self.index]`
(`none` for an out-of-range index, where Python raises `IndexError`). -/
def Director.current (d : Director) : Option String :=
  (keysA d.stages)[d.index]?

/-- The `Director.subsequent` property:
`list(self.stages.keys())[self.index + 1]`, `None` past the end. -/
def Director.subsequent (d : Director) : Option String :=
  (keysA d.stages)[d.index + 1]?

/-- `Director.__next__` (src/fiat/interface.py:158-174): when
`self.index + 1 < len(self.stages)` it looks up the current and subsequent
stage values, builds the subsequent product onto the project (an effect on
the project object only) and increments the index; otherwise it raises
`StopIteration`, leaving the index unchanged. -/
def Director.next (d : Director) : Except Unit Director :=
  if d.index + 1 < d.stages.length then .ok { d with index := d.index + 1 }
  else .error ()

/-- `Director.advance`: `return self.__next__()`
(src/fiat/interface.py:80-82). -/
def Director.advance (d : Director) : Except Unit Director := d.next

/-- The claim's three-stage scenario. -/
def directorStages : List (String × String) :=
  [("settings", "settings"), ("workflow", "workflow"), ("summary", "summary")]

/-- **C7 (counterexample).** Over the stages
`settings`/`workflow`/`summary`, already the *third* call to `advance()`
raises the stop-iteration condition (the guard `index + 1 < len(stages)`
admits only two increments), contradicting the claim that three calls
succeed and the fourth raises. -/
theorem director_third_advance_raises :
    Director.advance ⟨directorStages, 0⟩ = Except.ok ⟨directorStages, 1⟩ ∧
    Director.advance ⟨directorStages, 1⟩ = Except.ok ⟨directorStages, 2⟩ ∧
    Director.advance ⟨directorStages, 2⟩ = Except.error () := by
  refine ⟨rfl, rfl, ?_⟩
  rfl

/-- **C7 (amended).** Over the stages `settings`/`workflow`/`summary`, two
successive calls to `advance()` succeed and move `current` from `"settings"`
through `"workflow"` to `"summary"`; the third call raises the stop-iteration
condition, which leaves the director's index (and hence `current`)
unchanged. -/
theorem director_two_advances_then_stop :
    Director.current ⟨directorStages, 0⟩ = some "settings" ∧
    Director.advance ⟨directorStages, 0⟩ = Except.ok ⟨directorStages, 1⟩ ∧
    Director.current ⟨directorStages, 1⟩ = some "workflow" ∧
    Director.advance ⟨directorStages, 1⟩ = Except.ok ⟨directorStages, 2⟩ ∧
    Director.current ⟨directorStages, 2⟩ = some "summary" ∧
    Director.advance ⟨directorStages, 2⟩ = Except.error () := by
  refine ⟨rfl, rfl, rfl, rfl, rfl, rfl⟩



/-! ### `outline_to_design` (src/fiat/workshop.py:170-198) -/

/-- `outline[sec][key]`: a missing section or missing key is a `KeyError`,
modelled as `none`. -/
def lookup2 (outline : Outline) (sec key : String) : Option SettingValue :=
  match lookupA outline sec with
  | none => none
  | some s => lookupA s key

/-- `outline_to_design(name, section, outline)` (src/fiat/workshop.py:170-198):
three nested `try/except KeyError` lookups — `outline[name][f'{name}_design']`,
then `outline[name]['design']`, then `outline[section][f'{name}_design']`.
Every `KeyError` is caught, so the call always returns normally
(`Except.ok`); the inner `none` is the Python `None` assigned when all three
lookups fail. -/
def outline_to_design (name sec : String) (outline : Outline) :
    Except String (Option SettingValue) :=
  Except.ok
    (match lookup2 outline name (name ++ "_design") with
     | some d => some d
     | none =>
         match lookup2 outline name "design" with
         | some d => some d
         | none =>
             match lookup2 outline sec (name ++ "_design") with
             | some d => some d
             | none => none)

/-- **C8 (counterexample).** When none of the three design lookups succeeds,
`outline_to_design` does not fail with an error: it returns normally with the
Python value `None` (the spec itself flags this ambiguity in §9). -/
theorem outline_to_design_none_counterexample :
    outline_to_design "x" "s" [("x", []), ("s", [])] = Except.ok none := rfl

/-- **C8 (amended).** Design resolution tries, in order, `<name>_design` in
the node's own section, then the plain key `design` there, then
`<name>_design` in the owning section, and returns the first value found;
when all three lookups fail it returns `None` instead of raising — the call
never produces an error. -/
theorem outline_to_design_resolution_order (name sec : String)
    (outline : Outline) :
    outline_to_design name sec outline =
      Except.ok
        ((lookup2 outline name (name ++ "_design")).orElse fun _ =>
          (lookup2 outline name "design").orElse fun _ =>
            lookup2 outline sec (name ++ "_design")) := by
  unfold outline_to_design
  cases h1 : lookup2 outline name (name ++ "_design") with
  | some d => simp [Option.orElse, h1]
  | none =>
      cases h2 : lookup2 outline name "design" with
      | some d => simp [Option.orElse, h1, h2]
      | none =>
          cases h3 : lookup2 outline sec (name ++ "_design") with
          | some d => simp [Option.orElse, h1, h2, h3]
          | none => simp [Option.orElse, h1, h2, h3]



/-! ### `Component.execute` (src/fiat/nodes.py:332-362) -/

/-- `self.contents`: Python `None`, one of the null strings `'None'` /
`'none'`, or an actual payload. -/
inductive ComponentContents : Type
  | pyNone
  | strNoneCap
  | strNoneLow
  | payload (n : Nat)
  deriving DecidableEq, Repr

/-- `self.contents in [None, 'None', 'none']`. -/
def isNullContents : ComponentContents → Bool
  | .pyNone => true
  | .strNoneCap => true
  | .strNoneLow => true
  | .payload _ => false

/-- `self.parameters`: either a plain mapping or a `Parameters` instance
(the `isinstance(self.parameters, Parameters)` test distinguishes them). -/
inductive ParamsLike : Type
  | dict (m : List (String × Nat))
  | inst (p : Parameters)
  deriving DecidableEq, Repr

/-- Python truthiness of `self.parameters` (a mapping is falsy when empty). -/
def paramsTruthy : ParamsLike → Bool
  | .dict m => ¬ m.isEmpty
  | .inst p => ¬ p.contents.isEmpty

/-- `iterations`: an int or the `'infinite'` sentinel. -/
inductive Iterations : Type
  | int (n : Nat)
  | infinite
  deriving DecidableEq, Repr

/-- The `Component` dataclass fields used by `execute`.  The abstract
`implement` method is subclass-provided and passed explicitly to the
embedding of `execute`. -/
structure Component where
  name : String
  contents : ComponentContents
  parameters : ParamsLike
  iterations : Iterations
  deriving DecidableEq, Repr

/-- Outcome of a call to `execute`: a normal return carrying the resulting
project, the number of `implement` invocations and whether parameter
finalization ran; a raised exception; or divergence (the
`while True: project = self.implement(...)` loop of the `'infinite'`
sentinel, which has no exit). -/
inductive ExecResult : Type
  | ok (proj : Project) (implementCalls : Nat) (finalized : Bool)
  | raised (e : String)
  | diverges
  deriving Repr

/-- `self.implement` applied `n` times:
`for _ in range(iterations): project = self.implement(project, **params)`. -/
def iterImplement (impl : Project → List (String × Nat) → Project)
    (params : List (String × Nat)) : Nat → Project → Project
  | 0, proj => proj
  | n + 1, proj => iterImplement impl params n (impl proj params)

/-- `Component.execute(project, iterations, **kwargs)`
(src/fiat/nodes.py:332-362).  With null-like `contents` the whole body is
skipped and the project is returned as is; otherwise the parameters are
assembled (finalizing a `Parameters` instance against the project, which can
raise), and `implement` runs `iterations` times — forever for the
`'infinite'` sentinel. -/
def Component.execute (impl : Project → List (String × Nat) → Project)
    (comp : Component) (proj : Project) (iterations : Option Iterations)
    (kwargs : List (String × Nat)) : ExecResult :=
  let iters := match iterations with
    | none => comp.iterations
    | some i => i
  if isNullContents comp.contents then .ok proj 0 false
  else
    let pstep : Except String (List (String × Nat) × Bool) :=
      if paramsTruthy comp.parameters then
        match comp.parameters with
        | .inst p =>
            match p.finalize proj [] with
            | .error e => .error e
            | .ok p' => .ok (updateA p'.contents kwargs, true)
        | .dict m => .ok (updateA m kwargs, false)
      else .ok (kwargs, false)
    match pstep with
    | .error e => .raised e
    | .ok (params, finalized) =>
        match iters with
        | .infinite => .diverges
        | .int n => .ok (iterImplement impl params n proj) n finalized

/-- **C10.** Whenever `contents` is `None` (or the string `'None'` or
`'none'`), `execute` returns the project unchanged, with zero calls to
`implement` and no parameter finalization, for every `iterations` argument
and stored iteration count — including the `'infinite'` sentinel. -/
theorem execute_null_contents_frame
    (impl : Project → List (String × Nat) → Project) (comp : Component)
    (proj : Project) (iterations : Option Iterations)
    (kwargs : List (String × Nat))
    (h : isNullContents comp.contents = true) :
    Component.execute impl comp proj iterations kwargs =
      ExecResult.ok proj 0 false := by
  unfold Component.execute
  rw [h]
  simp

/-- Witness for `execute_null_contents_frame`: a component whose `contents`
is `None` and whose stored iteration count is the `'infinite'` sentinel. -/
theorem execute_null_contents_frame_witness :
    Component.execute (fun p _ => p)
        ⟨"c", ComponentContents.pyNone, ParamsLike.dict [("a", 1)],
         Iterations.infinite⟩
        ⟨none, [], []⟩ none [] =
      ExecResult.ok ⟨none, [], []⟩ 0 false :=
  execute_null_contents_frame (fun p _ => p)
    ⟨"c", ComponentContents.pyNone, ParamsLike.dict [("a", 1)],
     Iterations.infinite⟩
    ⟨none, [], []⟩ none [] rfl


end Fiat
